import Mathlib

/-!
Verification of the core of the PerfectNS / PerfectNestedSampling repository.

The Python sources are shallowly embedded:

* numpy float arrays become `List ℚ` where only field arithmetic and
  comparisons occur, and `List ℝ` where the source applies `np.log`,
  `np.exp` or `scipy logsumexp`;
* the global numpy random stream becomes an explicit argument: a list
  (or function) of the `log(np.random.random())` draws consumed;
* a Python `assert` failure or fatal index error becomes `Option`
  (`none` = the run dies) or `Except PyErr`;
* a Python `return None` becomes an explicit inner `Option`.

The collaborator callables `settings.r_given_logx`, `settings.logl_given_r`
and `scipy.special.erfinv` live outside this repository's core, so they are
function parameters, exactly as the spec's §4.B interface prescribes.
-/

namespace PNS

/-- Python assertion failure (`AssertionError`). -/
inductive PyErr where
  | assertionError : PyErr
deriving DecidableEq

/-- Maximum of a list, `np.max` style: meaningful on non-empty input
(the `[]` case returns `0` and is never hit under the theorems' hypotheses,
matching the fact that `np.max` of an empty array is an error). -/
def listMax {α : Type} [LinearOrder α] [Zero α] : List α → α
  | [] => 0
  | x :: xs => xs.foldl max x

/-- Cumulative sums, `np.cumsum`: entry `i` is `w[0] + ... + w[i]`. -/
def cumsum {α : Type} [Add α] : List α → List α
  | [] => []
  | x :: xs => x :: (cumsum xs).map (fun y => x + y)

/-- Sums of the strict tails: entry `i` is `w[i+1] + ... + w[n-1]`
(so the final entry is `0`). -/
def tailsSums : List ℚ → List ℚ
  | [] => []
  | _ :: xs => xs.sum :: tailsSums xs

/-- Embeds `z_importance` (src/PerfectNestedSampling/nested_sampling.py
lines 304-320) with `exact=False`, the only value any caller in this
repository passes: `importance = cumsum(w)`, then
`importance = importance.max() - importance`, then
`importance *= 1.0 / nlive` elementwise, then divide by the maximum.
The `exact=True` branch (fractional powers of `nlive`) is unreachable here
and is not modelled. -/
def z_importance (w nlive : List ℚ) : List ℚ :=
  let importance0 := cumsum w
  let importance1 := importance0.map (fun y => listMax importance0 - y)
  let importance2 := (importance1.zip nlive).map (fun p => p.1 * (1 / p.2))
  importance2.map (fun y => y / listMax importance2)

/-- Modelled from the amended spec sentence: the strict tail cumulative
weight `t[i]` is the sum of `w[j]` over `j > i`, divided elementwise by
`nlive[i]`, then rescaled so the maximum equals 1. -/
def z_importance_tail_spec (w nlive : List ℚ) : List ℚ :=
  let t := List.zipWith (fun ti ni => ti / ni) (tailsSums w) nlive
  t.map (fun y => y / listMax t)

/-- Embeds `run['nlive_array']` construction in `generate_standard_run`
(src/PerfectNestedSampling/nested_sampling.py lines 135-137):
`np.zeros(nPoints) + nlive` followed by `for i in range(1, nlive):
nlive_array[-i] = i` (the negative index `-i` is `nPoints - i`).
`nPoints = run['logl'].shape[0]` is the number of dead points plus the
`nlive` appended final live points. -/
def nlive_array (nPoints nlive : ℕ) : List ℕ :=
  (List.range' 1 (nlive - 1)).foldl (fun arr i => arr.set (arr.length - i) i)
    (List.replicate nPoints nlive)

/-- Embeds the same construction in src/npns/nested_sampling.py lines
93-95, whose loop runs `for i in range(1, nlive + 1)`. -/
def nlive_array_npns (nPoints nlive : ℕ) : List ℕ :=
  (List.range' 1 nlive).foldl (fun arr i => arr.set (arr.length - i) i)
    (List.replicate nPoints nlive)

/-- A row of the samples matrix used by the dynamic driver and the thread
generator: columns `[logl, r, logx, thread_label, change-in-nlive]`.  The
trailing `theta` columns are produced by the external collaborator
`mf.sample_nsphere_shells` and are outside the modelled core. -/
structure SampleRow where
  logl : ℚ
  r : ℚ
  logx : ℚ
  label : ℚ
  dnlive : ℚ
deriving DecidableEq

/-- The `while logx_list[-1] > logx_end` loop of `generate_thread_logx`
(src/PerfectNestedSampling/nested_sampling.py lines 240-241): `cur` is the
last element already in `logx_list`; while it exceeds `logxEnd`, append
`cur + log(np.random.random())`.  `draws` supplies the successive
`log(np.random.random())` values; `none` models a loop that has not yet
terminated within the supplied draws. -/
def threadLogxLoop (logxEnd : ℚ) : ℚ → List ℚ → Option (List ℚ)
  | cur, [] => if cur ≤ logxEnd then some [cur] else none
  | cur, d :: ds =>
    if cur ≤ logxEnd then some [cur]
    else (threadLogxLoop logxEnd (cur + d) ds).map (fun l => cur :: l)

/-- Embeds `generate_thread_logx` (src/PerfectNestedSampling/
nested_sampling.py lines 234-244): the list starts as
`[logx_start + log(np.random.random())]`, grows while its last entry
exceeds `logx_end`, and the final (terminating) entry is dropped when
`keep_final_point` is false. -/
def generate_thread_logx (logxEnd : ℚ) (logxStart : ℚ) (keepFinalPoint : Bool)
    (draws : List ℚ) : Option (List ℚ) :=
  match draws with
  | [] => none
  | d :: ds =>
    (threadLogxLoop logxEnd (logxStart + d) ds).map
      (fun l => if keepFinalPoint then l else l.dropLast)

/-- Sets the change-in-nlive column to `-1` on the final sample
(`lrxtn[-1, 4] = -1` in the source) and leaves it `0` elsewhere. -/
def setLastDnlive : List SampleRow → List SampleRow
  | [] => []
  | [row] => [{ row with dnlive := -1 }]
  | row :: rest => row :: setLastDnlive rest

/-- Builds the `lrxtn` rows of a thread from its `logx` list using the
collaborator maps `r_given_logx` and `logl_given_r`. -/
def threadRows (rGivenLogx loglGivenR : ℚ → ℚ) (label : ℚ)
    (lxs : List ℚ) : List SampleRow :=
  setLastDnlive (lxs.map (fun lx =>
    { logl := loglGivenR (rGivenLogx lx), r := rGivenLogx lx, logx := lx,
      label := label, dnlive := 0 }))

/-- Embeds `generate_single_thread` (src/PerfectNestedSampling/
nested_sampling.py lines 247-273).  The outer `Option` is `none` when the
trajectory loop has not terminated within the supplied draws; the
`Except` models the `assert logx_start > logx_end`; the inner `Option`
models the Python `return None` taken when the trajectory is empty.
`logxEnd` is passed already resolved (the `logx_end is None` default is
replaced by `settings.logx_terminate` before the assert). -/
def generate_single_thread (rGivenLogx loglGivenR : ℚ → ℚ) (logxEnd : ℚ)
    (threadLabel : ℚ) (logxStart : ℚ) (keepFinalPoint : Bool)
    (draws : List ℚ) : Option (Except PyErr (Option (List SampleRow))) :=
  if ¬ (logxStart > logxEnd) then some (Except.error PyErr.assertionError)
  else
    match generate_thread_logx logxEnd logxStart keepFinalPoint draws with
    | none => none
    | some logxList =>
      if logxList = [] then some (Except.ok none)
      else some (Except.ok (some
        (threadRows rGivenLogx loglGivenR threadLabel logxList)))

/-- Result of `min_max_importance`: the source returns
`[logl_min, logl_max], [logx_min, logx_max]`; `loglMin` is `none` when the
source stores `np.nan` (a thread started from the whole prior). -/
structure MinMaxResult where
  loglMin : Option ℚ
  loglMax : ℚ
  logxMin : ℚ
  logxMax : ℚ
deriving DecidableEq

instance : Inhabited SampleRow :=
  ⟨{ logl := 0, r := 0, logx := 0, label := 0, dnlive := 0 }⟩

/-- Embeds `np.where(condition)[0]` on a 1-d boolean array: the ascending
list of indices where the predicate holds. -/
def whereIdx {α : Type} (p : α → Bool) : List α → List ℕ
  | [] => []
  | x :: xs =>
    if p x then 0 :: (whereIdx p xs).map (fun i => i + 1)
    else (whereIdx p xs).map (fun i => i + 1)

/-- Embeds the `np.where(samples[:, 0] == logl)[0]` lookup with its
uniqueness assert (`assert ind.shape == (1,)`) used twice in
`min_max_importance`: returns `samples[ind[0], 2]`, or `none` when the
assert fails. -/
def lookupUniqueLogx (samples : List SampleRow) (key : ℚ) : Option ℚ :=
  let ind := whereIdx (fun row => decide (row.logl = key)) samples
  if ind.length = 1 then samples[ind.headI]?.map SampleRow.logx else none

/-- The `logl_min` / `logx_min` half of `min_max_importance` (lines
353-366 of the source): whole-prior start `(NaN, 0)` when the first
high-importance index is 0, else the key `samples[h0 - 1, 0]` with its
looked-up `logx`. -/
def minPartSrc (samples : List SampleRow) (h0 : ℕ) : Option (Option ℚ × ℚ) :=
  if h0 = 0 then some (none, 0)
  else
    samples[h0 - 1]?.bind (fun row =>
      (lookupUniqueLogx samples row.logl).map (fun lx => (some row.logl, lx)))

/-- The `logl_max` / `logx_max` half of `min_max_importance` (lines
367-380 of the source): the final sample when the last high-importance
index is the last row, else the key `samples[hLast + 1, 0]` with its
looked-up `logx`. -/
def maxPartSrc (samples : List SampleRow) (hLast : ℕ) : Option (ℚ × ℚ) :=
  if hLast = samples.length - 1 then
    samples.getLast?.map (fun row => (row.logl, row.logx))
  else
    samples[hLast + 1]?.bind (fun row =>
      (lookupUniqueLogx samples row.logl).map (fun lx => (row.logl, lx)))

/-- Pairs the two halves; `none` (a fatal error) in either half kills the
whole call. -/
def combineParts (mn : Option (Option ℚ × ℚ)) (mx : Option (ℚ × ℚ)) :
    Option MinMaxResult :=
  match mn, mx with
  | some mn, some mx => some ⟨mn.1, mx.1, mn.2, mx.2⟩
  | _, _ => none

/-- Embeds `min_max_importance` (src/PerfectNestedSampling/
nested_sampling.py lines 344-381).  `none` models a fatal error: the
`dynamic_fraction` assert, an empty high-importance index set
(`high_importance_inds[0]` raises IndexError), an out-of-range row access,
or a failed uniqueness assert in a lookup. -/
def min_max_importance (importance : List ℚ) (samples : List SampleRow)
    (df : ℚ) : Option MinMaxResult :=
  if ¬ (0 < df ∧ df < 1) then none
  else
    match whereIdx (fun a => decide (df < a)) importance with
    | [] => none
    | h0 :: rest =>
      combineParts (minPartSrc samples h0)
        (maxPartSrc samples ((h0 :: rest).getLastD 0))

/-- Modelled from the spec sentence for the lookup: `logx` is taken from
the UNIQUE sample whose `logl` equals the key; the lookup is fatal exactly
when the number of samples whose `logl` equals the key differs from
exactly one. -/
def lookupUniqueLogx_spec (samples : List SampleRow) (key : ℚ) : Option ℚ :=
  if (samples.filter (fun row => decide (row.logl = key))).length = 1 then
    (samples.find? (fun row => decide (row.logl = key))).map SampleRow.logx
  else none

/-- `minPartSrc` with the lookup replaced by the spec-worded lookup. -/
def minPartSpec (samples : List SampleRow) (h0 : ℕ) : Option (Option ℚ × ℚ) :=
  if h0 = 0 then some (none, 0)
  else
    samples[h0 - 1]?.bind (fun row =>
      (lookupUniqueLogx_spec samples row.logl).map (fun lx => (some row.logl, lx)))

/-- `maxPartSrc` with the lookup replaced by the spec-worded lookup. -/
def maxPartSpec (samples : List SampleRow) (hLast : ℕ) : Option (ℚ × ℚ) :=
  if hLast = samples.length - 1 then
    samples.getLast?.map (fun row => (row.logl, row.logx))
  else
    samples[hLast + 1]?.bind (fun row =>
      (lookupUniqueLogx_spec samples row.logl).map (fun lx => (row.logl, lx)))

/-- Modelled from the spec's step 3 of the dynamic driver: identical
branch structure to `min_max_importance`, with each `logx` lookup
following the spec's words. -/
def min_max_importance_spec (importance : List ℚ) (samples : List SampleRow)
    (df : ℚ) : Option MinMaxResult :=
  match whereIdx (fun a => decide (df < a)) importance with
  | [] => none
  | h0 :: rest =>
    combineParts (minPartSpec samples h0)
      (maxPartSpec samples ((h0 :: rest).getLastD 0))

/-- The number of samples whose `logl` equals the key. -/
def countLoglMatches (samples : List SampleRow) (key : ℚ) : ℕ :=
  (samples.filter (fun row => decide (row.logl = key))).length

/-- Concrete two-row samples matrix used by the witness below. -/
def mmiSamples : List SampleRow :=
  [{ logl := 10, r := 1, logx := -1, label := 1, dnlive := 0 },
   { logl := 20, r := 2, logx := -2, label := 1, dnlive := -1 }]

/-- Rows in non-decreasing `logl` order. -/
def sortedByLogl (l : List SampleRow) : Prop :=
  List.Chain' (fun a b => a.logl ≤ b.logl) l

/-- The documented contract of `samples[np.argsort(samples[:, 0])]`
(line 220 of the source): the output is a permutation of the input in
non-decreasing `logl` order.  numpy's default `kind='quicksort'`
guarantees nothing further — in particular it does not guarantee
stability for tied keys. -/
def argsortContract (input output : List SampleRow) : Prop :=
  output.Perm input ∧ sortedByLogl output

/-- The claim's stability property: any two rows with equal `logl` keep
the relative order they had before the sort. -/
def tiesStable (input output : List SampleRow) : Prop :=
  ∀ i, i < input.length → ∀ j, j < input.length → i < j →
    (input.getD i default).logl = (input.getD j default).logl →
    ∃ i2, i2 < output.length ∧ ∃ j2, j2 < output.length ∧ i2 < j2 ∧
      output.getD i2 default = input.getD i default ∧
      output.getD j2 default = input.getD j default

/-- Records a thread birth: `samples[start_ind, 4] += 1` at the (asserted
unique) rows with `logl = key` (lines 210-215); a `none` key models the
NaN `logl_min`, which matches no row, so nothing changes. -/
def bumpDnlive (key : Option ℚ) (samples : List SampleRow) : List SampleRow :=
  match key with
  | none => samples
  | some k => samples.map (fun row =>
      if row.logl = k then { row with dnlive := row.dnlive + 1 } else row)

/-- One batch of the dynamic driver's step 2 (`for _ in range(nbatch)`,
lines 201-218): per iteration, record the new thread's birth and append
the thread's rows with `np.vstack`.  Thread labels and the
`thread_min_max` bookkeeping do not change the samples matrix and are
omitted. -/
def appendBatch (thread : ℕ → List SampleRow) (key : Option ℚ) (nbatch : ℕ)
    (samples : List SampleRow) : List SampleRow :=
  (List.range nbatch).foldl (fun s b => bumpDnlive key s ++ thread b) samples

/-- The `while n_samples < n_samples_max` loop of `generate_dynamic_run`
(src/PerfectNestedSampling/nested_sampling.py lines 196-221), with the
per-iteration randomness abstracted into streams: `threads iter b` is the
thread generated in batch slot `b` of iteration `iter` and `keys iter` is
that iteration's `logl_min`.  `sortFn` models
`samples[np.argsort(samples[:, 0])]` and `fuel` models the unbounded
Python loop (`none` = the loop has not finished within `fuel`
iterations). -/
def dynamicLoop (sortFn : List SampleRow → List SampleRow) (nbatch : ℕ)
    (nmax : ℚ) (keys : ℕ → Option ℚ) (threads : ℕ → ℕ → List SampleRow) :
    ℕ → List SampleRow → ℕ → Option (List SampleRow)
  | 0, samples, _ =>
    if (samples.length : ℚ) < nmax then none else some samples
  | fuel + 1, samples, iter =>
    if (samples.length : ℚ) < nmax then
      dynamicLoop sortFn nbatch nmax keys threads fuel
        (sortFn (appendBatch (threads iter) (keys iter) nbatch samples))
        (iter + 1)
    else some samples

/-- The `logl`-comparison relation used to model the sort. -/
def rowLE (a b : SampleRow) : Prop := a.logl ≤ b.logl

instance : DecidableRel rowLE :=
  fun a b => inferInstanceAs (Decidable (a.logl ≤ b.logl))

instance : IsTotal SampleRow rowLE := ⟨fun a b => le_total a.logl b.logl⟩

instance : IsTrans SampleRow rowLE := ⟨fun _ _ _ h h2 => le_trans h h2⟩

/-- Two rows sharing one `logl` but with different thread labels. -/
def tieRowA : SampleRow := { logl := 1, r := 0, logx := 0, label := 1, dnlive := 0 }

/-- See `tieRowA`. -/
def tieRowB : SampleRow := { logl := 1, r := 0, logx := 0, label := 2, dnlive := 0 }

/-- The likelihood classes of this repository
(`type(settings.likelihood).__name__`). -/
inductive LikelihoodKind where
  | gaussian : LikelihoodKind
  | expPower : LikelihoodKind
  | cauchy : LikelihoodKind
deriving DecidableEq

/-- The prior classes (`type(settings.prior).__name__`); `other` stands
for any class outside the two the assert admits. -/
inductive PriorKind where
  | gaussian : PriorKind
  | gaussianCached : PriorKind
  | other : PriorKind
deriving DecidableEq

/-- The slice of the settings object consumed by
`paramCredEstimator.analytical`. -/
structure CredSettings where
  likelihood : LikelihoodKind
  prior : PriorKind
  likelihoodScale : ℝ
  priorScale : ℝ

/-- Embeds `paramCredEstimator.analytical` (src/PerfectNS/estimators.py
lines 210-229).  `scipy.special.erfinv` is an external collaborator and
is passed as a function parameter; the Gaussian-likelihood and
Gaussian-prior asserts become `Except.error`. -/
noncomputable def paramCredAnalytical (erfinv : ℝ → ℝ) (probability : ℝ)
    (s : CredSettings) : Except PyErr ℝ :=
  if probability = 1 / 2 then Except.ok 0
  else if ¬ (s.likelihood = LikelihoodKind.gaussian) then
    Except.error PyErr.assertionError
  else if ¬ (s.prior = PriorKind.gaussian ∨ s.prior = PriorKind.gaussianCached)
      then Except.error PyErr.assertionError
  else
    Except.ok ((erfinv (probability * 2 - 1) * Real.sqrt 2) *
      ((s.likelihoodScale ^ (-2 : ℤ) + s.priorScale ^ (-2 : ℤ)) ^
        (-(1 / 2) : ℝ)))

/-- The per-estimator behaviour of `get_true_estimator_values`
(src/PerfectNS/estimators.py lines 271-289): a successful `analytical`
value is tabulated, and an `AttributeError` / `AssertionError` becomes the
table's not-a-number entry (modelled as `none`). -/
def trueEstimatorValue (analytical : Except PyErr ℝ) : Option ℝ :=
  match analytical with
  | Except.ok v => some v
  | Except.error _ => none

/-- Non-Gaussian settings used by the witness below. -/
noncomputable def credSettingsW : CredSettings :=
  { likelihood := LikelihoodKind.cauchy, prior := PriorKind.other,
    likelihoodScale := 1, priorScale := 1 }

/-- `scipy.misc.logsumexp(xs)` (equivalently `mf.log_sum_given_logs`):
`log (sum of exp xs)`. -/
noncomputable def logsumexp (xs : List ℝ) : ℝ :=
  Real.log ((xs.map Real.exp).sum)

/-- `np.log(0.5 * (t ** -1 - t))` with `t = np.exp(-1.0 / nlive)`: the
trapezium-rule factor of the geometric shrinkage series (lines 101-102 of
src/PerfectNestedSampling/nested_sampling.py). -/
noncomputable def logtrapz (nlive : ℕ) : ℝ :=
  Real.log (0.5 * ((Real.exp (-1 / (nlive : ℝ)))⁻¹ - Real.exp (-1 / (nlive : ℝ))))

/-- `scipy.misc.logsumexp((a, b))` where `a` may be the initial
`-np.inf`, modelled as `Option ℝ` with `none = -inf`. -/
noncomputable def logaddexpOpt (a : Option ℝ) (b : ℝ) : ℝ :=
  match a with
  | none => b
  | some a2 => Real.log (Real.exp a2 + Real.exp b)

/-- The state of `generate_standard_run`: each live point keeps
`(logl, logx)` (columns 0 and 2 of `live_points`; the radial coordinate
is the collaborator's intermediate value), `logx_i` is the running
prior-volume pointer, `logz_dead` accumulates the dead evidence (`none`
is the initial `-np.inf`), and `logz_live` is the cached live evidence
tested by the `while` condition. -/
structure StdState where
  live : List (ℝ × ℝ)
  logx_i : ℝ
  logz_dead : Option ℝ
  logz_live : ℝ

/-- Modelled from the spec: the live-evidence formula
`logsumexp(live.logl) + logx_i - log(nlive)` evaluated on the CURRENT
state. -/
noncomputable def logzLiveFormula (nlive : ℕ) (s : StdState) : ℝ :=
  logsumexp (s.live.map Prod.fst) + s.logx_i - Real.log (nlive : ℝ)

/-- Initial state of the PerfectNestedSampling driver (lines 89-99):
`initLogxs` holds `log(np.random.random())` for the `nlive_const` initial
live points, `f` is `logl_given_r ∘ r_given_logx`, and the initial cached
`logz_live` includes the `- np.log(nlive_const)` term (line 98). -/
noncomputable def pnsInit (f : ℝ → ℝ) (initLogxs : List ℝ) : StdState :=
  { live := initLogxs.map (fun lx => (f lx, lx)),
    logx_i := 0,
    logz_dead := none,
    logz_live :=
      logsumexp ((initLogxs.map (fun lx => (f lx, lx))).map Prod.fst) + 0 -
        Real.log ((initLogxs.length : ℝ)) }

/-- Initial state of the npns driver (src/npns/nested_sampling.py lines
43-50): identical, except that its initial `logz_live` is
`mf.log_sum_given_logs(live[:, 0]) + logx_i` WITHOUT the
`- np.log(nlive)` term (line 50). -/
noncomputable def npnsInit (f : ℝ → ℝ) (initLogxs : List ℝ) : StdState :=
  { live := initLogxs.map (fun lx => (f lx, lx)),
    logx_i := 0,
    logz_dead := none,
    logz_live :=
      logsumexp ((initLogxs.map (fun lx => (f lx, lx))).map Prod.fst) + 0 }

/-- `live_points[:, 0].min()`. -/
noncomputable def minLiveLogl (live : List (ℝ × ℝ)) : ℝ :=
  match live with
  | [] => 0
  | p :: ps => (ps.map Prod.fst).foldl min p.1

/-- `np.where(live[:, 0] == live[:, 0].min())[0][0]`: the first index
attaining the minimum `logl` (line 107). -/
noncomputable def minLoglIdx (live : List (ℝ × ℝ)) : ℕ :=
  live.findIdx (fun p => decide (p.1 = minLiveLogl live))

/-- One replacement iteration of the `while` loop body (lines 106-118):
the first minimum-`logl` live point dies; `logx_i` decreases by
`1/nlive`; the dead evidence absorbs `logl_dying + logtrapz + logx_i`;
the dying point's `logx` shrinks by the draw `d = log(np.random.random())`
and its `r`, `logl` are recomputed via the collaborator; finally the
cached `logz_live` is recomputed from the NEW live set and the NEW
`logx_i`, with the `- np.log(nlive)` term (line 117). -/
noncomputable def stdStep (f : ℝ → ℝ) (nlive : ℕ) (d : ℝ) (s : StdState) :
    StdState :=
  let ind := minLoglIdx s.live
  let dying := s.live.getD ind (0, 0)
  let logxi2 := s.logx_i + (-1 / (nlive : ℝ))
  let logzdead2 :=
    some (logaddexpOpt s.logz_dead (dying.1 + logtrapz nlive + logxi2))
  let newLogx := dying.2 + d
  let live2 := s.live.set ind (f newLogx, newLogx)
  { live := live2,
    logx_i := logxi2,
    logz_dead := logzdead2,
    logz_live := logsumexp (live2.map Prod.fst) + logxi2 - Real.log (nlive : ℝ) }

/-- The `while` condition (line 105):
`logz_live - np.log(termination_fraction) > logz_dead`; with the initial
`logz_dead = -np.inf` it always holds. -/
noncomputable def stdCond (tf : ℝ) (s : StdState) : Prop :=
  match s.logz_dead with
  | none => True
  | some zd => s.logz_live - Real.log tf > zd

open Classical in
/-- The replacement loop with explicit fuel: apply `stdStep` while
`stdCond` holds; `draws k` is the `log(np.random.random())` consumed by
the k-th replacement. -/
noncomputable def stdRun (f : ℝ → ℝ) (nlive : ℕ) (tf : ℝ) (draws : ℕ → ℝ) :
    ℕ → ℕ → StdState → StdState
  | 0, _, s => s
  | fuel + 1, k, s =>
    if stdCond tf s then
      stdRun f nlive tf draws fuel (k + 1) (stdStep f nlive (draws k) s)
    else s

/-- A state on which the loop condition fails (`logz_dead` already far
above the cached live evidence). -/
noncomputable def stdStateStop : StdState :=
  { live := [], logx_i := 0, logz_dead := some 100, logz_live := 0 }

/-- A state on which the loop condition holds (`logz_dead` still
`-np.inf`). -/
noncomputable def stdStateGo : StdState :=
  { live := [(0, 0)], logx_i := 0, logz_dead := none, logz_live := 0 }

/-- `np.exp(logw - logw.max())`: the relative posterior weights
(src/PerfectNS/estimators.py lines 122 and 195). -/
noncomputable def wRelative (logw : List ℝ) : List ℝ :=
  logw.map (fun x => Real.exp (x - listMax logw))

/-- Comparison by the value column, for the sort by `wr[:, 1]`. -/
def sndLE (a b : ℝ × ℝ) : Prop := a.2 ≤ b.2

noncomputable instance : DecidableRel sndLE :=
  fun a b => Real.decidableLE a.2 b.2

instance : IsTotal (ℝ × ℝ) sndLE := ⟨fun a b => le_total a.2 b.2⟩

instance : IsTrans (ℝ × ℝ) sndLE := ⟨fun _ _ _ h h2 => le_trans h h2⟩

/-- `wr[np.argsort(wr[:, 1])]`: the weight/value pairs ordered by value.
Modelled by a stable insertion sort, one admissible realisation of
`np.argsort`. -/
noncomputable def sortBySnd (wp : List (ℝ × ℝ)) : List (ℝ × ℝ) :=
  wp.insertionSort sndLE

/-- The skew-adjusted, normalised cumulative distribution function
`cdf = (np.cumsum(wr[:, 0]) - wr[0, 0] / 2) / np.sum(wr[:, 0])`
(lines 132-133 and 205-206). -/
noncomputable def credCdf (sorted : List (ℝ × ℝ)) : List ℝ :=
  ((cumsum (sorted.map Prod.fst)).map
      (fun c2 => c2 - (sorted.map Prod.fst).headI / 2)).map
    (fun c2 => c2 / (sorted.map Prod.fst).sum)

/-- `np.interp(x, xp, fp)` on the nodes `(xp i, fp i)` with `xp`
increasing: clamps outside the node range and interpolates linearly
between bracketing nodes. -/
noncomputable def interp (x : ℝ) : List (ℝ × ℝ) → ℝ
  | [] => 0
  | [(_, fp1)] => fp1
  | (xp1, fp1) :: (xp2, fp2) :: rest =>
    if x ≤ xp1 then fp1
    else if x ≤ xp2 then fp1 + (fp2 - fp1) * (x - xp1) / (xp2 - xp1)
    else interp x ((xp2, fp2) :: rest)

/-- Embeds the shared body of `rCredEstimator.estimator`
(src/PerfectNS/estimators.py lines 118-136) and
`paramCredEstimator.estimator` (lines 191-208): relative weights are
paired with the value column, sorted by value, the skew-adjusted
normalised cdf is formed, and the requested probability is linearly
interpolated. -/
noncomputable def credEstimator (probability : ℝ) (logw vals : List ℝ) : ℝ :=
  interp probability
    ((credCdf (sortBySnd ((wRelative logw).zip vals))).zip
      ((sortBySnd ((wRelative logw).zip vals)).map Prod.snd))

/-- `rCredEstimator.estimator`: the value column is `ns_run['r']`. -/
noncomputable def rCredEstimator (probability : ℝ) (logw r : List ℝ) : ℝ :=
  credEstimator probability logw r

/-- `paramCredEstimator.estimator`: the value column is
`ns_run['theta'][:, param_ind - 1]`. -/
noncomputable def paramCredEstimatorFun (probability : ℝ) (paramInd : ℕ)
    (logw : List ℝ) (theta : List (List ℝ)) : ℝ :=
  credEstimator probability logw
    (theta.map (fun row => row.getD (paramInd - 1) 0))

lemma seed_le_foldl_max {α : Type} [LinearOrder α] :
    ∀ (xs : List α) (x : α), x ≤ xs.foldl max x := by
  intro xs
  induction xs with
  | nil => intro x; exact le_refl x
  | cons y ys ih => intro x; exact le_trans (le_max_left x y) (ih (max x y))

lemma mem_le_foldl_max {α : Type} [LinearOrder α] :
    ∀ (xs : List α) (x : α) (a : α), a ∈ xs → a ≤ xs.foldl max x := by
  intro xs
  induction xs with
  | nil => intro x a h; cases h
  | cons y ys ih =>
    intro x a h
    rcases List.mem_cons.mp h with rfl | h'
    · exact le_trans (le_max_right x a) (seed_le_foldl_max ys (max x a))
    · exact ih (max x y) a h'

lemma foldl_max_cases {α : Type} [LinearOrder α] :
    ∀ (xs : List α) (x : α), xs.foldl max x = x ∨ xs.foldl max x ∈ xs := by
  intro xs
  induction xs with
  | nil => intro x; exact Or.inl rfl
  | cons y ys ih =>
    intro x
    rcases ih (max x y) with h | h
    · have hfold : List.foldl max x (y :: ys) = max x y := by
        simp only [List.foldl]; exact h
      rcases max_choice x y with hc | hc
      · exact Or.inl (by rw [hfold, hc])
      · exact Or.inr (by rw [hfold, hc]; exact List.mem_cons_self _ _)
    · exact Or.inr (List.mem_cons.mpr (Or.inr h))

lemma le_listMax_of_mem {α : Type} [LinearOrder α] [Zero α]
    {l : List α} {a : α} (h : a ∈ l) : a ≤ listMax l := by
  match l with
  | x :: xs =>
    rcases List.mem_cons.mp h with rfl | h'
    · exact seed_le_foldl_max xs a
    · exact mem_le_foldl_max xs x a h'

lemma listMax_mem {α : Type} [LinearOrder α] [Zero α]
    {l : List α} (h : l ≠ []) : listMax l ∈ l := by
  match l with
  | x :: xs =>
    rcases foldl_max_cases xs x with hh | hh
    · exact List.mem_cons.mpr (Or.inl hh)
    · exact List.mem_cons.mpr (Or.inr hh)

lemma foldl_max_map_div (c : ℚ) (hc : 0 ≤ c) :
    ∀ (xs : List ℚ) (x : ℚ),
      (xs.map (fun y => y / c)).foldl max (x / c) = xs.foldl max x / c := by
  intro xs
  induction xs with
  | nil => intro x; rfl
  | cons y ys ih =>
    intro x
    simp only [List.map, List.foldl]
    rw [max_div_div_right hc x y, ih (max x y)]

lemma listMax_map_div {l : List ℚ} {c : ℚ} (hc : 0 < c) :
    listMax (l.map (fun y => y / c)) = listMax l / c := by
  match l with
  | [] => simp [listMax]
  | x :: xs =>
    show (xs.map (fun y => y / c)).foldl max (x / c) = xs.foldl max x / c
    exact foldl_max_map_div c (le_of_lt hc) xs x

lemma map_sub_cumsum : ∀ w : List ℚ,
    (cumsum w).map (fun y => w.sum - y) = tailsSums w := by
  intro w
  induction w with
  | nil => rfl
  | cons x xs ih =>
    have hfun : (fun y => (x :: xs).sum - (x + y)) = fun y => xs.sum - y := by
      funext y; rw [List.sum_cons]; ring
    simp only [cumsum, tailsSums, List.map_cons, List.map_map, List.sum_cons,
      add_sub_cancel_left, Function.comp_def]
    rw [show (fun y => x + xs.sum - (x + y)) = fun y => xs.sum - y by
      funext y; ring]
    exact congrArg (xs.sum :: ·) ih

lemma mem_cumsum_le_sum {w : List ℚ} (hw : ∀ b ∈ w, 0 ≤ b) :
    ∀ a ∈ cumsum w, a ≤ w.sum := by
  induction w with
  | nil => intro a ha; cases ha
  | cons x xs ih =>
    intro a ha
    rcases List.mem_cons.mp ha with rfl | ha'
    · rw [List.sum_cons]
      have : (0 : ℚ) ≤ xs.sum :=
        List.sum_nonneg (fun b hb => hw b (List.mem_cons.mpr (Or.inr hb)))
      linarith
    · rcases List.mem_map.mp ha' with ⟨y, hy, rfl⟩
      rw [List.sum_cons]
      have := ih (fun b hb => hw b (List.mem_cons.mpr (Or.inr hb))) y hy
      linarith

lemma sum_mem_cumsum : ∀ {w : List ℚ}, w ≠ [] → w.sum ∈ cumsum w := by
  intro w
  induction w with
  | nil => intro h; exact absurd rfl h
  | cons x xs ih =>
    intro _
    rcases eq_or_ne xs [] with rfl | hne
    · simp [cumsum]
    · have := ih hne
      rw [List.sum_cons]
      exact List.mem_cons.mpr (Or.inr (List.mem_map.mpr ⟨xs.sum, this, rfl⟩))

lemma cumsum_ne_nil {w : List ℚ} (h : w ≠ []) : cumsum w ≠ [] := by
  match w with
  | x :: xs => simp [cumsum]

lemma listMax_cumsum {w : List ℚ} (hw : ∀ b ∈ w, 0 ≤ b) (hne : w ≠ []) :
    listMax (cumsum w) = w.sum := by
  refine le_antisymm ?_ ?_
  · exact mem_cumsum_le_sum hw _ (listMax_mem (cumsum_ne_nil hne))
  · exact le_listMax_of_mem (sum_mem_cumsum hne)

lemma tailsSums_length : ∀ w : List ℚ, (tailsSums w).length = w.length := by
  intro w
  induction w with
  | nil => rfl
  | cons x xs ih => simp [tailsSums, ih]

lemma map_zip_eq_zipWith {α β γ : Type} (f : α → β → γ) :
    ∀ (l₁ : List α) (l₂ : List β),
      (l₁.zip l₂).map (fun p => f p.1 p.2) = List.zipWith f l₁ l₂ := by
  intro l₁
  induction l₁ with
  | nil => intro l₂; rfl
  | cons x xs ih =>
    intro l₂
    cases l₂ with
    | nil => rfl
    | cons y ys => simp [List.zip_cons_cons, ih ys]

/-- C1 (amended): with `exact=false`, for positive weights (at least two of
them) and positive live counts of the same length, `z_importance` returns
the STRICT tail cumulative weight `t[i] = sum of w[j] over j > i` divided
elementwise by `nlive[i]` and rescaled so the maximum equals 1 (the spec's
quantity `max(cumsum(w)) - cumsum(w)[i]` equals the tail sum over `j > i`,
not over `j >= i`). -/
theorem z_importance_eq_tail_spec (w nlive : List ℚ)
    (hlen : 2 ≤ w.length) (hl : w.length = nlive.length)
    (hw : ∀ a ∈ w, 0 < a) (hn : ∀ a ∈ nlive, 0 < a) :
    z_importance w nlive = z_importance_tail_spec w nlive ∧
      listMax (z_importance w nlive) = 1 := by
  have hwne : w ≠ [] := by
    intro h; rw [h] at hlen; simp at hlen
  have h1 : (cumsum w).map (fun y => listMax (cumsum w) - y) = tailsSums w := by
    rw [listMax_cumsum (fun b hb => le_of_lt (hw b hb)) hwne]
    exact map_sub_cumsum w
  have h2 : ((tailsSums w).zip nlive).map (fun p => p.1 * (1 / p.2)) =
      List.zipWith (fun ti ni => ti / ni) (tailsSums w) nlive := by
    rw [map_zip_eq_zipWith (fun a b => a * (1 / b)) (tailsSums w) nlive]
    simp only [mul_one_div]
  have hz : z_importance w nlive =
      (List.zipWith (fun ti ni => ti / ni) (tailsSums w) nlive).map
        (fun y => y / listMax
          (List.zipWith (fun ti ni => ti / ni) (tailsSums w) nlive)) := by
    simp only [z_importance]
    rw [h1, h2]
  -- the maximum of the tail/nlive quotients is positive
  rcases w with _ | ⟨a, w'⟩
  · exact absurd rfl hwne
  rcases w' with _ | ⟨b, w''⟩
  · simp at hlen
  rcases nlive with _ | ⟨n0, ns⟩
  · simp at hl
  have hbpos : (0 : ℚ) < (b :: w'').sum := by
    refine List.sum_pos _ (fun x hx => hw x (List.mem_cons.mpr (Or.inr hx))) (by simp)
  have hn0 : (0 : ℚ) < n0 := hn n0 (List.mem_cons_self _ _)
  have ht0 : (0 : ℚ) < (b :: w'').sum / n0 := div_pos hbpos hn0
  have hhead : ((b :: w'').sum / n0) ∈
      List.zipWith (fun ti ni => ti / ni) (tailsSums (a :: b :: w'')) (n0 :: ns) := by
    simp [tailsSums]
  have hMpos : (0 : ℚ) < listMax
      (List.zipWith (fun ti ni => ti / ni) (tailsSums (a :: b :: w'')) (n0 :: ns)) :=
    lt_of_lt_of_le ht0 (le_listMax_of_mem hhead)
  constructor
  · rw [hz]; rfl
  · rw [hz, listMax_map_div hMpos, div_self (ne_of_gt hMpos)]

/-- C1 (counterexample to the claim as stated): at `w = [1, 1]`,
`nlive = [1, 1]`, the code returns `[1, 0]`, not the `[1, 1/2]` demanded by
the inclusive tail formula `t[i] = sum of w[j] over j >= i`; likewise
`max(cumsum(w)) - cumsum(w)[0] = 1` differs from the inclusive tail sum
`2`. -/
theorem z_importance_counterexample :
    z_importance [1, 1] [1, 1] = [1, 0] ∧
      z_importance [1, 1] [1, 1] ≠ [1, 1 / 2] ∧
      listMax (cumsum [(1 : ℚ), 1]) - (cumsum [(1 : ℚ), 1]).headI ≠
        (([(1 : ℚ), 1]).drop 0).sum := by
  refine ⟨?_, ?_, ?_⟩ <;> norm_num [z_importance, cumsum, listMax, max_def]

/-- Witness for `z_importance_eq_tail_spec` at `w = [1, 1]`,
`nlive = [1, 2]`. -/
theorem z_importance_eq_tail_spec_witness :
    z_importance [1, 1] [1, 2] = z_importance_tail_spec [1, 1] [1, 2] ∧
      listMax (z_importance [1, 1] [1, 2]) = 1 :=
  z_importance_eq_tail_spec [1, 1] [1, 2] (by norm_num) (by norm_num)
    (by intro a ha; fin_cases ha <;> norm_num)
    (by intro a ha; fin_cases ha <;> norm_num)

lemma replicate_set_last (v x : ℕ) :
    ∀ m, (List.replicate (m + 1) v).set m x = List.replicate m v ++ [x] := by
  intro m
  induction m with
  | zero => rfl
  | succ m ih =>
    show (v :: List.replicate (m + 1) v).set (m + 1) x = _
    rw [List.set_cons_succ, ih]
    rfl

lemma foldSets_replicate (v : ℕ) :
    ∀ (k L : ℕ), k ≤ L →
      (List.range' 1 k).foldl (fun arr i => arr.set (arr.length - i) i)
          (List.replicate L v) =
        List.replicate (L - k) v ++ (List.range' 1 k).reverse := by
  intro k
  induction k with
  | zero => intro L _; simp
  | succ k ih =>
    intro L hk
    have hstep : List.range' 1 (k + 1) = List.range' 1 k ++ [k + 1] := by
      have := @List.range'_concat 1 1 k
      simpa [Nat.add_comm] using this
    rw [hstep, List.foldl_append]
    rw [ih L (Nat.le_of_succ_le hk)]
    have hlen : (List.replicate (L - k) v ++ (List.range' 1 k).reverse).length
        = L := by
      simp [List.length_replicate, List.length_reverse, List.length_range']
      omega
    simp only [List.foldl]
    rw [hlen]
    have hidx : L - (k + 1) < (List.replicate (L - k) v).length := by
      simp [List.length_replicate]; omega
    rw [List.set_append, if_pos hidx]
    have hrepl : (List.replicate (L - k) v).set (L - (k + 1)) (k + 1) =
        List.replicate (L - (k + 1)) v ++ [k + 1] := by
      have h1 : L - k = (L - (k + 1)) + 1 := by omega
      rw [h1, replicate_set_last v (k + 1) (L - (k + 1))]
    rw [hrepl, List.reverse_append]
    simp [List.append_assoc]

/-- C7: after a standard run with `nlive ≥ 1` live points and `nDead`
recorded replacements, the returned `nlive_array` has length
`nDead + nlive`, each of the first `nDead` entries equals `nlive`, and the
j-th entry from the end (1-indexed) equals `j` for `1 ≤ j ≤ nlive`, so the
tail decreases by 1 per step from `nlive` down to 1; the npns variant of
the construction produces the identical array. -/
theorem nlive_array_spec (nDead nlive : ℕ) (h : 1 ≤ nlive) :
    (nlive_array (nDead + nlive) nlive).length = nDead + nlive ∧
      (∀ i, i < nDead → (nlive_array (nDead + nlive) nlive)[i]? = some nlive) ∧
      (∀ j, 1 ≤ j → j ≤ nlive →
        (nlive_array (nDead + nlive) nlive)[nDead + nlive - j]? = some j) ∧
      nlive_array_npns (nDead + nlive) nlive = nlive_array (nDead + nlive) nlive := by
  have hform : nlive_array (nDead + nlive) nlive =
      List.replicate (nDead + 1) nlive ++ (List.range' 1 (nlive - 1)).reverse := by
    unfold nlive_array
    rw [foldSets_replicate nlive (nlive - 1) (nDead + nlive) (by omega)]
    congr 2
    omega
  have hformN : nlive_array_npns (nDead + nlive) nlive =
      List.replicate nDead nlive ++ (List.range' 1 nlive).reverse := by
    unfold nlive_array_npns
    rw [foldSets_replicate nlive nlive (nDead + nlive) (by omega)]
    congr 2
    omega
  refine ⟨?_, ?_, ?_, ?_⟩
  · rw [hform]
    simp [List.length_replicate, List.length_reverse, List.length_range']
    omega
  · intro i hi
    rw [hform, List.getElem?_append, if_pos (by simp; omega),
      List.getElem?_replicate, if_pos (by omega)]
  · intro j hj1 hj2
    rw [hform, List.getElem?_append]
    rcases eq_or_lt_of_le hj2 with rfl | hlt
    · rw [if_pos (by simp only [List.length_replicate]; omega),
        List.getElem?_replicate, if_pos (by omega)]
    · rw [if_neg (by simp only [List.length_replicate]; omega)]
      have hlenrev : (List.range' 1 (nlive - 1)).length = nlive - 1 := by
        simp [List.length_range']
      have hoff : nDead + nlive - j - (List.replicate (nDead + 1) nlive).length
          = nlive - 1 - j := by
        simp [List.length_replicate]; omega
      rw [hoff]
      have hbound : nlive - 1 - j < (List.range' 1 (nlive - 1)).length := by
        rw [hlenrev]; omega
      rw [List.getElem?_reverse (by rw [hlenrev]; omega)]
      rw [hlenrev]
      have hidx : nlive - 1 - 1 - (nlive - 1 - j) = j - 1 := by omega
      rw [hidx, List.getElem?_eq_getElem (by rw [hlenrev]; omega),
        List.getElem_range']
      congr 1
      omega
  · rw [hform, hformN]
    have hsplit : List.range' 1 nlive = List.range' 1 (nlive - 1) ++ [nlive] := by
      have := @List.range'_concat 1 1 (nlive - 1)
      have heq : nlive - 1 + 1 = nlive := by omega
      rw [heq] at this
      simpa [show 1 + (nlive - 1) = nlive by omega] using this
    rw [hsplit, List.reverse_append]
    rw [List.replicate_succ', List.append_assoc]
    rfl

/-- Witness for `nlive_array_spec` at `nDead = 2`, `nlive = 3`. -/
theorem nlive_array_spec_witness :
    (nlive_array (2 + 3) 3).length = 2 + 3 ∧
      (∀ i, i < 2 → (nlive_array (2 + 3) 3)[i]? = some 3) ∧
      (∀ j, 1 ≤ j → j ≤ 3 → (nlive_array (2 + 3) 3)[2 + 3 - j]? = some j) ∧
      nlive_array_npns (2 + 3) 3 = nlive_array (2 + 3) 3 :=
  nlive_array_spec 2 3 (by norm_num)

lemma setLastDnlive_length : ∀ l : List SampleRow,
    (setLastDnlive l).length = l.length := by
  intro l
  induction l with
  | nil => rfl
  | cons row rest ih =>
    cases rest with
    | nil => rfl
    | cons r2 rest2 => simpa [setLastDnlive] using ih

lemma threadLogxLoop_inv (logxEnd : ℚ) :
    ∀ (draws : List ℚ) (cur : ℚ) (l : List ℚ),
      threadLogxLoop logxEnd cur draws = some l →
      (∀ d ∈ draws, d < 0) →
      l ≠ [] ∧ l.head? = some cur ∧ List.Chain' (fun a b => b < a) l ∧
        (∀ y, l.getLast? = some y → y ≤ logxEnd) := by
  intro draws
  induction draws with
  | nil =>
    intro cur l hl _
    unfold threadLogxLoop at hl
    by_cases hc : cur ≤ logxEnd
    · rw [if_pos hc] at hl
      cases hl
      refine ⟨by simp, by simp, by simp, ?_⟩
      intro y hy
      simp at hy
      exact hy ▸ hc
    · rw [if_neg hc] at hl
      cases hl
  | cons d ds ih =>
    intro cur l hl hneg
    unfold threadLogxLoop at hl
    by_cases hc : cur ≤ logxEnd
    · rw [if_pos hc] at hl
      cases hl
      refine ⟨by simp, by simp, by simp, ?_⟩
      intro y hy
      simp at hy
      exact hy ▸ hc
    · rw [if_neg hc] at hl
      rcases Option.map_eq_some'.mp hl with ⟨l', hl', rfl⟩
      have hds : ∀ x ∈ ds, x < 0 :=
        fun x hx => hneg x (List.mem_cons.mpr (Or.inr hx))
      obtain ⟨hne', hhead', hchain', hlast'⟩ := ih (cur + d) l' hl' hds
      have hdneg : d < 0 := hneg d (List.mem_cons_self _ _)
      refine ⟨by simp, by simp, ?_, ?_⟩
      · rw [List.chain'_cons']
        refine ⟨?_, hchain'⟩
        intro y hy
        rw [hhead'] at hy
        simp at hy
        rw [← hy]
        linarith
      · intro y hy
        match l', hne' with
        | x :: xs, _ =>
          rw [List.getLast?_cons_cons] at hy
          exact hlast' y hy

/-- C9: with `keep_final_point=True` and `logx_start > logx_end`, whenever
the trajectory loop terminates on the supplied negative log-uniform draws,
the generated `logx` list is non-empty, strictly decreasing, ends at or
below `logx_end`, and `generate_single_thread` returns an actual thread
(never the `None` branch), whose row list is non-empty. -/
theorem generate_single_thread_keep_final_spec
    (rg lg : ℚ → ℚ) (logxEnd threadLabel logxStart : ℚ)
    (draws : List ℚ) (lxs : List ℚ)
    (hgt : logxStart > logxEnd)
    (hneg : ∀ d ∈ draws, d < 0)
    (hterm : generate_thread_logx logxEnd logxStart true draws = some lxs) :
    lxs ≠ [] ∧ List.Chain' (fun a b => b < a) lxs ∧
      (∀ y, lxs.getLast? = some y → y ≤ logxEnd) ∧
      generate_single_thread rg lg logxEnd threadLabel logxStart true draws =
        some (Except.ok (some (threadRows rg lg threadLabel lxs))) ∧
      threadRows rg lg threadLabel lxs ≠ [] := by
  have hne : lxs ≠ [] := by
    unfold generate_thread_logx at hterm
    match draws, hterm with
    | d :: ds, hterm =>
      rcases Option.map_eq_some'.mp hterm with ⟨l', hl', hl2⟩
      obtain ⟨hne', _, _, _⟩ := threadLogxLoop_inv logxEnd ds (logxStart + d) l'
        hl' (fun x hx => hneg x (List.mem_cons.mpr (Or.inr hx)))
      simp at hl2
      rw [← hl2]
      exact hne'
  have hprops : List.Chain' (fun a b => b < a) lxs ∧
      (∀ y, lxs.getLast? = some y → y ≤ logxEnd) := by
    unfold generate_thread_logx at hterm
    match draws, hterm with
    | d :: ds, hterm =>
      rcases Option.map_eq_some'.mp hterm with ⟨l', hl', hl2⟩
      obtain ⟨_, _, hchain, hlast⟩ := threadLogxLoop_inv logxEnd ds (logxStart + d) l'
        hl' (fun x hx => hneg x (List.mem_cons.mpr (Or.inr hx)))
      simp at hl2
      rw [← hl2]
      exact ⟨hchain, hlast⟩
  refine ⟨hne, hprops.1, hprops.2, ?_, ?_⟩
  · unfold generate_single_thread
    rw [if_neg (not_not_intro hgt), hterm]
    simp [hne]
  · unfold threadRows
    intro hcon
    have := setLastDnlive_length (lxs.map (fun lx =>
      { logl := lg (rg lx), r := rg lx, logx := lx,
        label := threadLabel, dnlive := 0 : SampleRow }))
    rw [hcon] at this
    simp at this
    exact hne (List.length_eq_zero.mp this.symm)

/-- Witness for `generate_single_thread_keep_final_spec`:
`logx_start = 0`, `logx_end = -2`, draws `[-1, -3]`, giving the
trajectory `[-1, -4]`. -/
theorem generate_single_thread_keep_final_spec_witness :
    ([(-1 : ℚ), -4] ≠ ([] : List ℚ)) ∧
      List.Chain' (fun a b : ℚ => b < a) [-1, -4] ∧
      (∀ y, ([(-1 : ℚ), -4]).getLast? = some y → y ≤ -2) ∧
      generate_single_thread (fun x => x) (fun x => x) (-2) 3 0 true [-1, -3] =
        some (Except.ok (some (threadRows (fun x => x) (fun x => x) 3 [-1, -4]))) ∧
      threadRows (fun x => x) (fun x => x) 3 [-1, -4] ≠ [] :=
  generate_single_thread_keep_final_spec (fun x => x) (fun x => x) (-2) 3 0
    [-1, -3] [-1, -4] (by norm_num)
    (by intro d hd; fin_cases hd <;> norm_num)
    (by norm_num [generate_thread_logx, threadLogxLoop])

/-- C4 (counterexample to the claim as stated): with
`keep_final_point=False`, `logx_start = 0 > logx_end = -1` and a first draw
`-2` that immediately falls below `logx_end`, the retained trajectory is
empty and `generate_single_thread` returns the Python value `None`
(`some (Except.ok none)` in the embedding) instead of failing with an
`EmptyThread` error. -/
theorem generate_single_thread_counterexample :
    generate_single_thread (fun x => x) (fun x => x) (-1) 7 0 false [-2] =
      some (Except.ok none) := by
  norm_num [generate_single_thread, generate_thread_logx, threadLogxLoop]

/-- C4 (amended): whenever the retained trajectory is empty (for example
when `keep_final_point` is false and the first draw already falls at or
below `logx_end`), `generate_single_thread` returns `None` — an empty/null
thread — rather than raising an error. -/
theorem generate_single_thread_none_on_empty
    (rg lg : ℚ → ℚ) (logxEnd threadLabel logxStart : ℚ) (kf : Bool)
    (draws : List ℚ) (hgt : logxStart > logxEnd)
    (hempty : generate_thread_logx logxEnd logxStart kf draws = some []) :
    generate_single_thread rg lg logxEnd threadLabel logxStart kf draws =
      some (Except.ok none) := by
  unfold generate_single_thread
  rw [if_neg (not_not_intro hgt), hempty]
  simp

/-- Witness for `generate_single_thread_none_on_empty`:
`logx_start = 0`, `logx_end = -3`, first draw `-5`. -/
theorem generate_single_thread_none_on_empty_witness :
    generate_single_thread (fun x => x) (fun x => x) (-3) 5 0 false [-5] =
      some (Except.ok none) :=
  generate_single_thread_none_on_empty (fun x => x) (fun x => x) (-3) 5 0 false
    [-5] (by norm_num)
    (by norm_num [generate_thread_logx, threadLogxLoop])

lemma mem_whereIdx_lt {α : Type} (p : α → Bool) :
    ∀ (l : List α) (i : ℕ), i ∈ whereIdx p l → i < l.length := by
  intro l
  induction l with
  | nil => intro i h; cases h
  | cons x xs ih =>
    intro i h
    unfold whereIdx at h
    by_cases hp : p x
    · rw [if_pos hp] at h
      rcases List.mem_cons.mp h with rfl | h2
      · simp
      · rcases List.mem_map.mp h2 with ⟨j, hj, rfl⟩
        have := ih j hj
        simp
        omega
    · rw [if_neg hp] at h
      rcases List.mem_map.mp h with ⟨j, hj, rfl⟩
      have := ih j hj
      simp
      omega

lemma whereIdx_head_getElem {α : Type} (p : α → Bool) :
    ∀ (l : List α) (i : ℕ), (whereIdx p l).head? = some i →
      l[i]? = l.find? p := by
  intro l
  induction l with
  | nil => intro i h; cases h
  | cons x xs ih =>
    intro i h
    unfold whereIdx at h
    by_cases hp : p x
    · rw [if_pos hp] at h
      simp at h
      rw [← h]
      simp [List.find?, hp]
    · rw [if_neg hp] at h
      rw [List.head?_map] at h
      rcases Option.map_eq_some'.mp h with ⟨j, hj, rfl⟩
      have := ih j hj
      simp only [List.getElem?_cons_succ]
      rw [this]
      simp [List.find?, hp]

lemma whereIdx_length_filter {α : Type} (p : α → Bool) :
    ∀ l : List α, (whereIdx p l).length = (l.filter p).length := by
  intro l
  induction l with
  | nil => rfl
  | cons x xs ih =>
    unfold whereIdx
    by_cases hp : p x
    · rw [if_pos hp]
      simp [List.filter_cons, hp, ih]
    · rw [if_neg hp]
      simp [List.filter_cons, hp, ih]

lemma lookupUniqueLogx_eq_spec (samples : List SampleRow) (key : ℚ) :
    lookupUniqueLogx samples key = lookupUniqueLogx_spec samples key := by
  unfold lookupUniqueLogx lookupUniqueLogx_spec
  rw [← whereIdx_length_filter]
  by_cases h1 :
      (whereIdx (fun row => decide (row.logl = key)) samples).length = 1
  · rw [if_pos h1, if_pos h1]
    rcases List.length_eq_one.mp h1 with ⟨i, hi⟩
    have hhead :
        (whereIdx (fun row => decide (row.logl = key)) samples).head? = some i := by
      rw [hi]; rfl
    have hheadI :
        (whereIdx (fun row => decide (row.logl = key)) samples).headI = i := by
      rw [hi]; rfl
    rw [hheadI, whereIdx_head_getElem _ samples i hhead]
  · rw [if_neg h1, if_neg h1]

lemma lookupUniqueLogx_spec_none_iff (samples : List SampleRow) (key : ℚ) :
    lookupUniqueLogx_spec samples key = none ↔
      countLoglMatches samples key ≠ 1 := by
  unfold lookupUniqueLogx_spec countLoglMatches
  by_cases hc : (samples.filter (fun row => decide (row.logl = key))).length = 1
  · rw [if_pos hc]
    have hfind :
        (samples.find? (fun row => decide (row.logl = key))).isSome = true := by
      rw [List.find?_isSome]
      rcases List.length_eq_one.mp hc with ⟨row, hrow⟩
      have hrowmem : row ∈ samples.filter (fun r2 => decide (r2.logl = key)) := by
        rw [hrow]; exact List.mem_cons_self _ _
      have h2 := List.mem_filter.mp hrowmem
      exact ⟨row, h2.1, h2.2⟩
    rcases Option.isSome_iff_exists.mp hfind with ⟨row, hrow⟩
    rw [hrow]
    simp [hc]
  · rw [if_neg hc]
    simp [hc]

lemma minPartSpec_none_iff (samples : List SampleRow) (h0 : ℕ)
    (hbnd : h0 - 1 < samples.length) :
    minPartSpec samples h0 = none ↔
      (h0 ≠ 0 ∧
        countLoglMatches samples ((samples.getD (h0 - 1) default).logl) ≠ 1) := by
  by_cases hz : h0 = 0
  · simp [minPartSpec, hz]
  · rw [minPartSpec, if_neg hz]
    have hgetD : samples.getD (h0 - 1) default = samples[h0 - 1] := by
      rw [List.getD_eq_getElem?_getD, List.getElem?_eq_getElem hbnd]
      rfl
    rw [List.getElem?_eq_getElem hbnd, hgetD, Option.some_bind]
    rw [Option.map_eq_none']
    rw [lookupUniqueLogx_spec_none_iff]
    simp [hz]

lemma maxPartSpec_none_iff (samples : List SampleRow) (hLast : ℕ)
    (hsamne : samples ≠ []) (hlt : hLast < samples.length) :
    maxPartSpec samples hLast = none ↔
      (hLast ≠ samples.length - 1 ∧
        countLoglMatches samples
          ((samples.getD (hLast + 1) default).logl) ≠ 1) := by
  by_cases hz : hLast = samples.length - 1
  · rcases hgl : samples.getLast? with _ | row
    · exact absurd (List.getLast?_eq_none_iff.mp hgl) hsamne
    · simp [maxPartSpec, hz, hgl]
  · have hbnd : hLast + 1 < samples.length := by
      have : 0 < samples.length := List.length_pos.mpr hsamne
      omega
    rw [maxPartSpec, if_neg hz]
    have hgetD : samples.getD (hLast + 1) default = samples[hLast + 1] := by
      rw [List.getD_eq_getElem?_getD, List.getElem?_eq_getElem hbnd]
      rfl
    rw [List.getElem?_eq_getElem hbnd, hgetD, Option.some_bind]
    rw [Option.map_eq_none']
    rw [lookupUniqueLogx_spec_none_iff]
    simp [hz]

lemma combineParts_eq_none_iff (mn : Option (Option ℚ × ℚ))
    (mx : Option (ℚ × ℚ)) :
    combineParts mn mx = none ↔ mn = none ∨ mx = none := by
  cases mn <;> cases mx <;> simp [combineParts]

/-- C5: for every importance vector and samples matrix of equal length
with `dynamic_fraction` in `(0, 1)` and a non-empty high-importance index
set `H`: `min_max_importance` agrees with the spec transcription
(whole-prior `(NaN, 0)` start when `H[0] = 0`, otherwise the bracket keys
`logl[H[0]-1]` / `logl[H[-1]+1]` with `logx` looked up from the UNIQUE
matching sample, and the final-sample end when `H[-1]` is the last row),
and the call fails if and only if one of its two lookups is ambiguous,
i.e. the number of samples carrying the looked-up `logl` key differs from
exactly one. -/
theorem min_max_importance_spec_thm
    (importance : List ℚ) (samples : List SampleRow) (df : ℚ)
    (h0 : ℕ) (rest : List ℕ)
    (hdf1 : 0 < df) (hdf2 : df < 1)
    (hlen : importance.length = samples.length)
    (hH : whereIdx (fun a => decide (df < a)) importance = h0 :: rest) :
    min_max_importance importance samples df =
        min_max_importance_spec importance samples df ∧
      (min_max_importance importance samples df = none ↔
        ((h0 ≠ 0 ∧
            countLoglMatches samples
              ((samples.getD (h0 - 1) default).logl) ≠ 1) ∨
          ((h0 :: rest).getLastD 0 ≠ samples.length - 1 ∧
            countLoglMatches samples
              ((samples.getD ((h0 :: rest).getLastD 0 + 1) default).logl)
              ≠ 1))) := by
  have heq : min_max_importance importance samples df =
      min_max_importance_spec importance samples df := by
    unfold min_max_importance min_max_importance_spec
    rw [if_neg (not_not_intro (And.intro hdf1 hdf2))]
    unfold minPartSrc minPartSpec maxPartSrc maxPartSpec
    simp only [lookupUniqueLogx_eq_spec]
  have hh0lt : h0 < samples.length := by
    have := mem_whereIdx_lt _ importance h0 (by rw [hH]; exact List.mem_cons_self _ _)
    omega
  have hLmem : (h0 :: rest).getLastD 0 ∈
      whereIdx (fun a => decide (df < a)) importance := by
    rw [hH, List.getLastD_eq_getLast?,
      List.getLast?_eq_getLast _ (by simp : h0 :: rest ≠ [])]
    exact List.getLast_mem _
  have hLlt : (h0 :: rest).getLastD 0 < samples.length := by
    have := mem_whereIdx_lt _ importance _ hLmem
    omega
  have hsamne : samples ≠ [] := by
    intro hc
    rw [hc] at hh0lt
    simp at hh0lt
  refine ⟨heq, ?_⟩
  rw [heq]
  unfold min_max_importance_spec
  rw [hH, combineParts_eq_none_iff,
    minPartSpec_none_iff samples h0 (by omega),
    maxPartSpec_none_iff samples _ hsamne hLlt]

/-- Witness for `min_max_importance_spec_thm`: importance `[1/4, 1]`,
two samples with distinct `logl`, `dynamic_fraction = 1/2`, so that
`H = [1]`. -/
theorem min_max_importance_spec_thm_witness :
    min_max_importance [1 / 4, 1] mmiSamples (1 / 2) =
        min_max_importance_spec [1 / 4, 1] mmiSamples (1 / 2) ∧
      (min_max_importance [1 / 4, 1] mmiSamples (1 / 2) = none ↔
        (((1 : ℕ) ≠ 0 ∧
            countLoglMatches mmiSamples
              ((mmiSamples.getD ((1 : ℕ) - 1) default).logl) ≠ 1) ∨
          (([(1 : ℕ)]).getLastD 0 ≠ mmiSamples.length - 1 ∧
            countLoglMatches mmiSamples
              ((mmiSamples.getD (([(1 : ℕ)]).getLastD 0 + 1) default).logl)
              ≠ 1))) :=
  min_max_importance_spec_thm [1 / 4, 1] mmiSamples (1 / 2) 1 []
    (by norm_num) (by norm_num) (by rfl)
    (by norm_num [whereIdx, mmiSamples])

/-- C3 (counterexample to the claim as stated): on the two equal-`logl`
rows `[tieRowA, tieRowB]`, the output `[tieRowB, tieRowA]` satisfies
everything `np.argsort`'s contract promises (a permutation in
non-decreasing `logl` order) yet reverses the relative order of the tied
rows, so stable sorting is not guaranteed by the code's
`samples[np.argsort(samples[:, 0])]`. -/
theorem dynamic_sort_counterexample :
    argsortContract [tieRowA, tieRowB] [tieRowB, tieRowA] ∧
      ¬ tiesStable [tieRowA, tieRowB] [tieRowB, tieRowA] := by
  constructor
  · constructor
    · exact List.Perm.swap tieRowA tieRowB []
    · simp [sortedByLogl, tieRowA, tieRowB]
  · intro h
    have h2 := h 0 (by norm_num) 1 (by norm_num) (by norm_num)
      (by simp [tieRowA, tieRowB])
    rcases h2 with ⟨i2, hi2, j2, hj2, hij, hvi, hvj⟩
    simp only [List.length_cons, List.length_nil] at hi2 hj2
    interval_cases i2
    · interval_cases j2
      simp_all [tieRowA, tieRowB]
    · omega

/-- C3 (amended): in the dynamic driver loop, after each batch is
appended the samples matrix is re-ordered to a permutation of itself in
non-decreasing `logl` order, so any matrix the loop returns after at
least one iteration is sorted by `logl`; the relative order of equal-
`logl` rows is NOT guaranteed (see `dynamic_sort_counterexample`). -/
theorem dynamicLoop_sorted (sortFn : List SampleRow → List SampleRow)
    (nbatch : ℕ) (nmax : ℚ) (keys : ℕ → Option ℚ)
    (threads : ℕ → ℕ → List SampleRow)
    (hsort : ∀ l, argsortContract l (sortFn l)) :
    ∀ (fuel : ℕ) (samples : List SampleRow) (iter : ℕ),
      (sortedByLogl samples ∨ (samples.length : ℚ) < nmax) →
      ∀ out, dynamicLoop sortFn nbatch nmax keys threads fuel samples iter =
          some out →
        sortedByLogl out := by
  intro fuel
  induction fuel with
  | zero =>
    intro samples iter hinv out hout
    unfold dynamicLoop at hout
    by_cases hc : (samples.length : ℚ) < nmax
    · rw [if_pos hc] at hout
      cases hout
    · rw [if_neg hc] at hout
      cases hout
      rcases hinv with h | h
      · exact h
      · exact absurd h hc
  | succ fuel ih =>
    intro samples iter hinv out hout
    unfold dynamicLoop at hout
    by_cases hc : (samples.length : ℚ) < nmax
    · rw [if_pos hc] at hout
      exact ih _ (iter + 1) (Or.inl (hsort _).2) out hout
    · rw [if_neg hc] at hout
      cases hout
      rcases hinv with h | h
      · exact h
      · exact absurd h hc

/-- Witness for `dynamicLoop_sorted`: one iteration appends `tieRowB`
(logl 1) to `[tieRowA]` and sorts with a genuine insertion sort. -/
theorem dynamicLoop_sorted_witness :
    sortedByLogl [tieRowA, tieRowB] := by
  have hsort : ∀ l, argsortContract l (l.insertionSort rowLE) := by
    intro l
    exact ⟨List.perm_insertionSort rowLE l,
      (List.sorted_insertionSort rowLE l).chain'⟩
  have hrun : dynamicLoop (fun l => l.insertionSort rowLE) 1 2 (fun _ => none)
      (fun _ _ => [tieRowB]) 2 [tieRowA] 0 = some [tieRowA, tieRowB] := by
    norm_num [dynamicLoop, appendBatch, bumpDnlive, List.insertionSort,
      List.orderedInsert, rowLE, tieRowA, tieRowB]
  exact dynamicLoop_sorted (fun l => l.insertionSort rowLE) 1 2 (fun _ => none)
    (fun _ _ => [tieRowB]) hsort 2 [tieRowA] 0 (by right; norm_num)
    [tieRowA, tieRowB] hrun

lemma bumpDnlive_length (key : Option ℚ) (samples : List SampleRow) :
    (bumpDnlive key samples).length = samples.length := by
  cases key with
  | none => rfl
  | some k => simp [bumpDnlive]

lemma appendBatch_foldl_length (thread : ℕ → List SampleRow) (key : Option ℚ) :
    ∀ (l : List ℕ) (samples : List SampleRow),
      ((l.foldl (fun s b => bumpDnlive key s ++ thread b) samples).length =
        samples.length + (l.map (fun b => (thread b).length)).sum) := by
  intro l
  induction l with
  | nil => intro samples; simp
  | cons b bs ih =>
    intro samples
    simp only [List.foldl, List.map_cons, List.sum_cons]
    rw [ih]
    simp [bumpDnlive_length]
    omega

lemma sum_map_range_bounds (f : ℕ → ℕ) (lo hi : ℕ)
    (hlo : ∀ b, lo ≤ f b) (hhi : ∀ b, f b ≤ hi) :
    ∀ n, n * lo ≤ ((List.range n).map f).sum ∧
      ((List.range n).map f).sum ≤ n * hi := by
  intro n
  induction n with
  | zero => simp
  | succ n ih =>
    rw [List.range_succ]
    simp only [List.map_append, List.sum_append, List.map_cons, List.map_nil,
      List.sum_cons, List.sum_nil]
    constructor
    · have := ih.1
      have := hlo n
      nlinarith
    · have := ih.2
      have := hhi n
      nlinarith

lemma dynamicLoop_stop (sortFn : List SampleRow → List SampleRow)
    (nbatch : ℕ) (nmax : ℚ) (keys : ℕ → Option ℚ)
    (threads : ℕ → ℕ → List SampleRow) (samples : List SampleRow)
    (hge : ¬ (samples.length : ℚ) < nmax) :
    ∀ fuel iter,
      dynamicLoop sortFn nbatch nmax keys threads fuel samples iter =
        some samples := by
  intro fuel iter
  cases fuel <;> simp [dynamicLoop, hge]

/-- C6: if the initial matrix has fewer than `n_samples_max` samples,
every generated thread has between 1 and `max_thread_len` samples,
`nbatch ≥ 1`, and the sort returns a permutation (in particular preserves
the sample count), then the importance-driven insertion loop terminates —
it returns within any fuel of at least `nmax - n₀` iterations — and the
final number of samples lies in
`[n_samples_max, n_samples_max + nbatch * max_thread_len]`. -/
theorem dynamicLoop_budget (sortFn : List SampleRow → List SampleRow)
    (nbatch mtl : ℕ) (nmax : ℚ) (keys : ℕ → Option ℚ)
    (threads : ℕ → ℕ → List SampleRow)
    (hsortlen : ∀ l, (sortFn l).length = l.length)
    (hlo : ∀ i b, 1 ≤ (threads i b).length)
    (hhi : ∀ i b, (threads i b).length ≤ mtl)
    (hnbatch : 1 ≤ nbatch) :
    ∀ (fuel : ℕ) (samples : List SampleRow) (iter : ℕ),
      (samples.length : ℚ) < nmax →
      nmax ≤ (samples.length : ℚ) + (fuel : ℚ) →
      ∃ out,
        dynamicLoop sortFn nbatch nmax keys threads fuel samples iter =
          some out ∧
        nmax ≤ (out.length : ℚ) ∧
        (out.length : ℚ) ≤ nmax + (nbatch : ℚ) * (mtl : ℚ) := by
  intro fuel
  induction fuel with
  | zero =>
    intro samples iter hlt hfuel
    push_cast at hfuel
    linarith
  | succ fuel ih =>
    intro samples iter hlt hfuel
    have hlen2 : (sortFn (appendBatch (threads iter) (keys iter) nbatch
        samples)).length = samples.length +
          ((List.range nbatch).map
            (fun b => (threads iter b).length)).sum := by
      rw [hsortlen]
      exact appendBatch_foldl_length (threads iter) (keys iter)
        (List.range nbatch) samples
    have hsum := sum_map_range_bounds (fun b => (threads iter b).length) 1 mtl
      (hlo iter) (hhi iter) nbatch
    unfold dynamicLoop
    rw [if_pos hlt]
    by_cases hc : ((sortFn (appendBatch (threads iter) (keys iter) nbatch
        samples)).length : ℚ) < nmax
    · refine ih _ (iter + 1) hc ?_
      rw [hlen2, Nat.cast_add]
      push_cast at hfuel
      have h1 : (1 : ℚ) ≤
          (((List.range nbatch).map (fun b => (threads iter b).length)).sum : ℚ) := by
        have := hsum.1
        have h2 : nbatch * 1 = nbatch := by omega
        rw [h2] at this
        exact_mod_cast le_trans hnbatch this
      linarith
    · rw [dynamicLoop_stop _ _ _ _ _ _ hc]
      refine ⟨_, rfl, le_of_not_lt hc, ?_⟩
      rw [hlen2, Nat.cast_add]
      have h2 : (((List.range nbatch).map
          (fun b => (threads iter b).length)).sum : ℚ) ≤
            (nbatch : ℚ) * (mtl : ℚ) := by
        exact_mod_cast hsum.2
      linarith

/-- Witness for `dynamicLoop_budget`: one thread of length 1 appended to a
single-row matrix with `nmax = 2`, `nbatch = 1`, `max_thread_len = 2`. -/
theorem dynamicLoop_budget_witness :
    ∃ out,
      dynamicLoop (fun l => l) 1 2 (fun _ => none) (fun _ _ => [tieRowB]) 3
          [tieRowA] 0 = some out ∧
      (2 : ℚ) ≤ (out.length : ℚ) ∧
      (out.length : ℚ) ≤ 2 + (1 : ℚ) * (2 : ℚ) := by
  have := dynamicLoop_budget (fun l => l) 1 2 2 (fun _ => none)
    (fun _ _ => [tieRowB]) (fun l => rfl) (fun i b => by norm_num)
    (fun i b => by norm_num) (by norm_num) 3 [tieRowA] 0 (by norm_num)
    (by norm_num)
  simpa using this

/-- C10: at probability exactly 0.5, `paramCredEstimator.analytical`
returns 0 for every settings object regardless of the likelihood and
prior classes — the Gaussian-likelihood and Gaussian-prior asserts are
evaluated only on the probability-not-0.5 branch (third conjunct) — so
the reference-table helper records the median entry as 0 and never
converts it to a not-a-number entry. -/
theorem paramCredAnalytical_median (erfinv : ℝ → ℝ) (s : CredSettings) :
    paramCredAnalytical erfinv (1 / 2) s = Except.ok 0 ∧
      trueEstimatorValue (paramCredAnalytical erfinv (1 / 2) s) = some 0 ∧
      (∀ p : ℝ, p ≠ 1 / 2 → s.likelihood ≠ LikelihoodKind.gaussian →
        paramCredAnalytical erfinv p s = Except.error PyErr.assertionError) := by
  have h : paramCredAnalytical erfinv (1 / 2) s = Except.ok 0 := by
    unfold paramCredAnalytical
    rw [if_pos rfl]
  refine ⟨h, by rw [h]; rfl, ?_⟩
  intro p hp hlik
  unfold paramCredAnalytical
  rw [if_neg hp, if_pos hlik]

/-- Witness for `paramCredAnalytical_median` on a Cauchy likelihood with a
non-Gaussian prior. -/
theorem paramCredAnalytical_median_witness :
    paramCredAnalytical (fun x => x) (1 / 2) credSettingsW = Except.ok 0 ∧
      trueEstimatorValue
        (paramCredAnalytical (fun x => x) (1 / 2) credSettingsW) = some 0 ∧
      paramCredAnalytical (fun x => x) (1 / 4) credSettingsW =
        Except.error PyErr.assertionError := by
  obtain ⟨h1, h2, h3⟩ := paramCredAnalytical_median (fun x => x) credSettingsW
  exact ⟨h1, h2, h3 (1 / 4) (by norm_num) (by simp [credSettingsW])⟩

/-- C2 (amended): in the PerfectNestedSampling standard driver the value
tested by the loop condition equals
`logsumexp(live.logl) + logx_i - log(nlive)` of the current state at every
test including the first (conjuncts 1 and 2: the cached `logz_live`
satisfies the formula at initialisation and after every replacement
step); the loop stops as soon as
`logz_live - log(termination_fraction) ≤ logz_dead` and steps exactly
while the condition holds (conjuncts 3 and 4); the npns driver's FIRST
test instead uses `logsumexp(live.logl) + logx_i` without `- log(nlive)`,
exceeding the formula by exactly `log(nlive)` (conjunct 5), while its
in-loop recomputation (line 71) matches conjunct 2. -/
theorem stdRun_logz_live_formula (f : ℝ → ℝ) (tf : ℝ) (draws : ℕ → ℝ) :
    (∀ initLogxs : List ℝ,
        (pnsInit f initLogxs).logz_live =
          logzLiveFormula initLogxs.length (pnsInit f initLogxs)) ∧
      (∀ (nlive : ℕ) (d : ℝ) (s : StdState),
        (stdStep f nlive d s).logz_live =
          logzLiveFormula nlive (stdStep f nlive d s)) ∧
      (∀ (nlive fuel k : ℕ) (s : StdState), ¬ stdCond tf s →
        stdRun f nlive tf draws fuel k s = s) ∧
      (∀ (nlive fuel k : ℕ) (s : StdState), stdCond tf s →
        stdRun f nlive tf draws (fuel + 1) k s =
          stdRun f nlive tf draws fuel (k + 1) (stdStep f nlive (draws k) s)) ∧
      (∀ initLogxs : List ℝ,
        (npnsInit f initLogxs).logz_live =
          logzLiveFormula initLogxs.length (npnsInit f initLogxs) +
            Real.log (initLogxs.length : ℝ)) := by
  refine ⟨?_, ?_, ?_, ?_, ?_⟩
  · intro initLogxs
    simp [pnsInit, logzLiveFormula]
  · intro nlive d s
    simp [stdStep, logzLiveFormula]
  · intro nlive fuel k s h
    cases fuel with
    | zero => rfl
    | succ fuel => simp [stdRun, h]
  · intro nlive fuel k s h
    simp [stdRun, h]
  · intro initLogxs
    simp [npnsInit, logzLiveFormula]

/-- C2 (counterexample to the claim as stated): with two live points of
`logl = 0`, the npns driver's first tested `logz_live` is
`logsumexp([0, 0]) = log 2`, which differs from the claimed formula
`logsumexp(live.logl) + logx_i - log(nlive) = log 2 - log 2 = 0`. -/
theorem npns_first_test_counterexample :
    (npnsInit (fun x => x) [0, 0]).logz_live ≠
      logzLiveFormula ([(0 : ℝ), 0]).length (npnsInit (fun x => x) [0, 0]) := by
  intro h
  simp only [npnsInit, logzLiveFormula] at h
  have h2 : Real.log ((([(0 : ℝ), 0]).length : ℕ) : ℝ) = 0 := by linarith
  rw [show ((([(0 : ℝ), 0]).length : ℕ) : ℝ) = 2 by norm_num] at h2
  exact absurd h2 (ne_of_gt (Real.log_pos (by norm_num)))

/-- Witness for `stdRun_logz_live_formula` with one live point, `tf = 1`,
all draws `-1`. -/
theorem stdRun_logz_live_formula_witness :
    (pnsInit (fun x => x) [0]).logz_live =
        logzLiveFormula ([(0 : ℝ)]).length (pnsInit (fun x => x) [0]) ∧
      (stdStep (fun x => x) 1 (-1) stdStateGo).logz_live =
        logzLiveFormula 1 (stdStep (fun x => x) 1 (-1) stdStateGo) ∧
      stdRun (fun x => x) 1 1 (fun _ => -1) 5 0 stdStateStop = stdStateStop ∧
      stdRun (fun x => x) 1 1 (fun _ => -1) (4 + 1) 0 stdStateGo =
        stdRun (fun x => x) 1 1 (fun _ => -1) 4 1
          (stdStep (fun x => x) 1 (-1) stdStateGo) ∧
      (npnsInit (fun x => x) [0]).logz_live =
        logzLiveFormula ([(0 : ℝ)]).length (npnsInit (fun x => x) [0]) +
          Real.log (([(0 : ℝ)]).length : ℝ) := by
  obtain ⟨h1, h2, h3, h4, h5⟩ :=
    stdRun_logz_live_formula (fun x => x) 1 (fun _ => -1)
  refine ⟨h1 [0], h2 1 (-1) stdStateGo, ?_, ?_, h5 [0]⟩
  · refine h3 1 5 0 stdStateStop ?_
    simp [stdCond, stdStateStop, Real.log_one]
  · exact h4 1 4 0 stdStateGo (by simp [stdCond, stdStateGo])

lemma cumsum_length {α : Type} [Add α] :
    ∀ l : List α, (cumsum l).length = l.length := by
  intro l
  induction l with
  | nil => rfl
  | cons x xs ih => simp [cumsum, ih]

lemma cumsum_head? {α : Type} [Add α] (l : List α) :
    (cumsum l).head? = l.head? := by
  cases l <;> rfl

lemma cumsum_chain_lt :
    ∀ l : List ℝ, (∀ a ∈ l, 0 < a) →
      List.Chain' (fun a b => a < b) (cumsum l) := by
  intro l
  induction l with
  | nil => intro _; simp [cumsum]
  | cons x xs ih =>
    intro hpos
    show List.Chain' _ (x :: (cumsum xs).map (fun y => x + y))
    rw [List.chain'_cons']
    constructor
    · intro y hy
      rw [List.head?_map] at hy
      rcases Option.map_eq_some'.mp hy with ⟨z, hz, rfl⟩
      rw [cumsum_head?] at hz
      have hzmem : z ∈ xs := List.mem_of_mem_head? hz
      have := hpos z (List.mem_cons.mpr (Or.inr hzmem))
      linarith
    · rw [List.chain'_map]
      exact (ih (fun a ha => hpos a (List.mem_cons.mpr (Or.inr ha)))).imp
        (fun a b hab => by simpa using hab)

lemma chain'_lt_map_sub_div (c s : ℝ) (hs : 0 < s) {l : List ℝ}
    (h : List.Chain' (fun a b => a < b) l) :
    List.Chain' (fun a b => a < b)
      ((l.map (fun y => y - c)).map (fun y => y / s)) := by
  rw [List.map_map, List.chain'_map]
  refine h.imp ?_
  intro a b hab
  simp only [Function.comp]
  exact (div_lt_div_iff_of_pos_right hs).mpr (by linarith)

lemma chain'_zip :
    ∀ xs ys : List ℝ, List.Chain' (fun a b => a < b) xs →
      List.Chain' (fun a b => a ≤ b) ys → xs.length = ys.length →
      List.Chain' (fun p q : ℝ × ℝ => p.1 < q.1 ∧ p.2 ≤ q.2) (xs.zip ys) := by
  intro xs
  induction xs with
  | nil => intro ys _ _ _; simp
  | cons a xs2 ih =>
    intro ys hx hy hlen
    cases ys with
    | nil => simp at hlen
    | cons b ys2 =>
      cases xs2 with
      | nil =>
        cases ys2 with
        | nil => simp
        | cons b2 ys3 => simp at hlen
      | cons a2 xs3 =>
        cases ys2 with
        | nil => simp at hlen
        | cons b2 ys3 =>
          simp only [List.zip_cons_cons]
          rw [List.chain'_cons] at hx hy
          rw [List.chain'_cons]
          refine ⟨⟨hx.1, hy.1⟩, ?_⟩
          have := ih (b2 :: ys3) hx.2 hy.2 (by simpa using hlen)
          simpa [List.zip_cons_cons] using this

lemma interp_ge_head :
    ∀ (rest : List (ℝ × ℝ)) (c d x : ℝ),
      List.Chain' (fun p q : ℝ × ℝ => p.1 < q.1 ∧ p.2 ≤ q.2) ((c, d) :: rest) →
      d ≤ interp x ((c, d) :: rest) := by
  intro rest
  induction rest with
  | nil => intro c d x _; simp [interp]
  | cons q rest2 ih =>
    intro c d x hch
    obtain ⟨e, f⟩ := q
    rw [List.chain'_cons] at hch
    obtain ⟨⟨hce, hdf⟩, hch2⟩ := hch
    simp only [interp]
    by_cases h1 : x ≤ c
    · rw [if_pos h1]
    · rw [if_neg h1]
      by_cases h2 : x ≤ e
      · rw [if_pos h2]
        have hec : (0 : ℝ) < e - c := by linarith
        have hnn : 0 ≤ (f - d) * (x - c) / (e - c) :=
          div_nonneg (mul_nonneg (by linarith) (by linarith)) (le_of_lt hec)
        linarith
      · rw [if_neg h2]
        exact le_trans hdf (ih e f x hch2)

lemma interp_mono :
    ∀ (l : List (ℝ × ℝ)) (x y : ℝ), x ≤ y →
      List.Chain' (fun p q : ℝ × ℝ => p.1 < q.1 ∧ p.2 ≤ q.2) l →
      interp x l ≤ interp y l := by
  intro l
  induction l with
  | nil => intro x y _ _; simp [interp]
  | cons p l2 ih =>
    obtain ⟨c, d⟩ := p
    cases l2 with
    | nil => intro x y _ _; simp [interp]
    | cons q l3 =>
      obtain ⟨e, f⟩ := q
      intro x y hxy hch
      rw [List.chain'_cons] at hch
      obtain ⟨⟨hce, hdf⟩, hch2⟩ := hch
      have hec : (0 : ℝ) < e - c := by linarith
      simp only [interp]
      by_cases hx1 : x ≤ c
      · rw [if_pos hx1]
        by_cases hy1 : y ≤ c
        · rw [if_pos hy1]
        · rw [if_neg hy1]
          by_cases hy2 : y ≤ e
          · rw [if_pos hy2]
            have hnn : 0 ≤ (f - d) * (y - c) / (e - c) :=
              div_nonneg (mul_nonneg (by linarith) (by linarith))
                (le_of_lt hec)
            linarith
          · rw [if_neg hy2]
            exact le_trans hdf (interp_ge_head l3 e f y hch2)
      · rw [if_neg hx1]
        by_cases hx2 : x ≤ e
        · rw [if_pos hx2]
          have hyc : ¬ y ≤ c := by linarith
          by_cases hy2 : y ≤ e
          · rw [if_neg hyc, if_pos hy2]
            have hmul : (f - d) * (x - c) ≤ (f - d) * (y - c) :=
              mul_le_mul_of_nonneg_left (by linarith) (by linarith)
            have hdivle := (div_le_div_iff_of_pos_right hec).mpr hmul
            linarith
          · rw [if_neg hyc, if_neg hy2]
            have hA : d + (f - d) * (x - c) / (e - c) ≤ f := by
              have ht1 : (x - c) / (e - c) ≤ 1 :=
                (div_le_one hec).mpr (by linarith)
              have h2 : (f - d) * ((x - c) / (e - c)) ≤ (f - d) * 1 :=
                mul_le_mul_of_nonneg_left ht1 (by linarith)
              have h3 : d + (f - d) * (x - c) / (e - c) =
                  d + (f - d) * ((x - c) / (e - c)) := by ring
              rw [h3]
              linarith
            exact le_trans hA (interp_ge_head l3 e f y hch2)
        · rw [if_neg hx2]
          have hyc : ¬ y ≤ c := by linarith
          have hye : ¬ y ≤ e := by linarith
          rw [if_neg hyc, if_neg hye]
          exact ih x y hxy hch2

lemma wRelative_zip_fst_pos (logw vals : List ℝ) :
    ∀ q ∈ (wRelative logw).zip vals, 0 < q.1 := by
  intro q hq
  obtain ⟨a, b⟩ := q
  have h1 := (List.of_mem_zip hq).1
  rcases List.mem_map.mp h1 with ⟨x, _, hx⟩
  rw [← hx]
  exact Real.exp_pos _

lemma credInterp_mono (wp : List (ℝ × ℝ)) (hpos : ∀ q ∈ wp, 0 < q.1)
    {p1 p2 : ℝ} (h12 : p1 ≤ p2) :
    interp p1 ((credCdf (sortBySnd wp)).zip ((sortBySnd wp).map Prod.snd)) ≤
      interp p2 ((credCdf (sortBySnd wp)).zip ((sortBySnd wp).map Prod.snd)) := by
  by_cases hnil : sortBySnd wp = []
  · rw [hnil]
    simp [credCdf, cumsum, interp]
  · have hsub : ∀ q ∈ sortBySnd wp, 0 < q.1 := fun q hq =>
      hpos q ((List.perm_insertionSort sndLE wp).subset hq)
    have hws_pos : ∀ a ∈ (sortBySnd wp).map Prod.fst, 0 < a := by
      intro a ha
      rcases List.mem_map.mp ha with ⟨q, hq, rfl⟩
      exact hsub q hq
    have hwsne : (sortBySnd wp).map Prod.fst ≠ [] := by
      simpa using hnil
    have hS : 0 < ((sortBySnd wp).map Prod.fst).sum :=
      List.sum_pos _ hws_pos hwsne
    have hcdf : List.Chain' (fun a b => a < b) (credCdf (sortBySnd wp)) := by
      unfold credCdf
      exact chain'_lt_map_sub_div _ _ hS
        (cumsum_chain_lt _ hws_pos)
    have hsnd : List.Chain' (fun a b => a ≤ b)
        ((sortBySnd wp).map Prod.snd) := by
      have hsorted : List.Pairwise sndLE (sortBySnd wp) :=
        List.sorted_insertionSort sndLE wp
      exact ((@List.pairwise_map (ℝ × ℝ) ℝ Prod.snd (fun a b => a ≤ b)
        (sortBySnd wp)).mpr hsorted).chain'
    have hlen : (credCdf (sortBySnd wp)).length =
        ((sortBySnd wp).map Prod.snd).length := by
      unfold credCdf
      simp [cumsum_length]
    exact interp_mono _ p1 p2 h12 (chain'_zip _ _ hcdf hsnd hlen)

/-- C8: for every run with non-empty `logw` and probabilities
`0 < p1 ≤ p2 < 1`, the one-tailed credible-interval estimators are
monotone in the probability, both for the radial credible interval and
for the single-parameter credible interval. -/
theorem credEstimators_monotone (logw r : List ℝ) (theta : List (List ℝ))
    (paramInd : ℕ) (p1 p2 : ℝ)
    (_hp0 : 0 < p1) (hp12 : p1 ≤ p2) (_hp1 : p2 < 1) (_hne : logw ≠ []) :
    rCredEstimator p1 logw r ≤ rCredEstimator p2 logw r ∧
      paramCredEstimatorFun p1 paramInd logw theta ≤
        paramCredEstimatorFun p2 paramInd logw theta := by
  constructor
  · exact credInterp_mono _ (wRelative_zip_fst_pos logw r) hp12
  · exact credInterp_mono _
      (wRelative_zip_fst_pos logw (theta.map (fun row => row.getD (paramInd - 1) 0)))
      hp12

/-- Witness for `credEstimators_monotone` at `logw = [0]`, `r = [1]`,
`theta = [[1]]`, `p1 = 1/4`, `p2 = 1/2`. -/
theorem credEstimators_monotone_witness :
    rCredEstimator (1 / 4) [0] [1] ≤ rCredEstimator (1 / 2) [0] [1] ∧
      paramCredEstimatorFun (1 / 4) 1 [0] [[1]] ≤
        paramCredEstimatorFun (1 / 2) 1 [0] [[1]] :=
  credEstimators_monotone [0] [1] [[1]] 1 (1 / 4) (1 / 2)
    (by norm_num) (by norm_num) (by norm_num) (by simp)

end PNS
